import Mathlib

/-!
Verification of `bot/exts/fun/off_topic_names.py` (off-topic channel name
management cog).

The file embeds, as executable Lean definitions:

* the fuzzy-matching routines the cog calls from Python's `difflib`
  (`SequenceMatcher.ratio` via the Ratcliff-Obershelp matching-block
  recursion, `quick_ratio`, `real_quick_ratio`, and `get_close_matches`),
  modelled for the junk-free case (the autojunk heuristic only activates on
  sequences of 200 or more characters, far beyond channel-name lengths);
  floating-point ratios are modelled as exact rationals;
* the pure decision logic of each command handler (`add`, `forceadd`,
  `delete`, `list`, `search`) and of the scheduled `update_names` task,
  with network and chat side effects reified as data (lists of POSTed
  names, DELETE paths, channel edits, and sent messages).

Theorems `C1` .. `C10` settle the specification claims.
-/

namespace OffTopicNames

/-! ### difflib model -/

/-- Length of the longest common prefix of two character lists. -/
def commonPrefixLen : List Char → List Char → Nat
  | x :: xs, y :: ys => if x = y then commonPrefixLen xs ys + 1 else 0
  | _, _ => 0

/-- `difflib.SequenceMatcher.find_longest_match` over whole sequences, in the
junk-free case: the longest block `a[i..i+k) = b[j..j+k)`, ties broken by the
smallest `i`, then the smallest `j` (the dynamic program records a new block
only on a strict size improvement, scanning positions in ascending order). -/
def find_longest_match (a b : List Char) : Nat × Nat × Nat :=
  (List.range a.length).foldl
    (fun best i =>
      (List.range b.length).foldl
        (fun best j =>
          let k := commonPrefixLen (a.drop i) (b.drop j)
          if best.2.2 < k then (i, j, k) else best)
        best)
    (0, 0, 0)

theorem commonPrefixLen_le_left : ∀ xs ys : List Char, commonPrefixLen xs ys ≤ xs.length
  | [], _ => by simp [commonPrefixLen]
  | _ :: _, [] => by simp [commonPrefixLen]
  | x :: xs, y :: ys => by
    simp only [commonPrefixLen, List.length_cons]
    split
    · exact Nat.succ_le_succ (commonPrefixLen_le_left xs ys)
    · exact Nat.zero_le _

theorem commonPrefixLen_le_right : ∀ xs ys : List Char, commonPrefixLen xs ys ≤ ys.length
  | [], _ => by simp [commonPrefixLen]
  | _ :: _, [] => by simp [commonPrefixLen]
  | x :: xs, y :: ys => by
    simp only [commonPrefixLen, List.length_cons]
    split
    · exact Nat.succ_le_succ (commonPrefixLen_le_right xs ys)
    · exact Nat.zero_le _

theorem foldl_invariant {α β : Type} (P : β → Prop) (f : β → α → β) :
    ∀ (l : List α) (init : β), P init → (∀ acc x, x ∈ l → P acc → P (f acc x)) →
      P (l.foldl f init)
  | [], init, h0, _ => h0
  | x :: l, init, h0, hs => by
    exact foldl_invariant P f l (f init x) (hs init x (by simp) h0)
      (fun acc y hy => hs acc y (by simp [hy]))

/-- The block returned by `find_longest_match` lies inside both sequences. -/
theorem find_longest_match_bounds (a b : List Char) :
    (find_longest_match a b).1 + (find_longest_match a b).2.2 ≤ a.length ∧
    (find_longest_match a b).2.1 + (find_longest_match a b).2.2 ≤ b.length := by
  unfold find_longest_match
  apply foldl_invariant
    (fun t : Nat × Nat × Nat => t.1 + t.2.2 ≤ a.length ∧ t.2.1 + t.2.2 ≤ b.length)
  · exact ⟨Nat.zero_le _, Nat.zero_le _⟩
  · intro acc i hi hacc
    apply foldl_invariant
      (fun t : Nat × Nat × Nat => t.1 + t.2.2 ≤ a.length ∧ t.2.1 + t.2.2 ≤ b.length)
    · exact hacc
    · intro acc' j hj hacc'
      simp only
      split
      · dsimp only
        refine ⟨?_, ?_⟩
        · have h1 := commonPrefixLen_le_left (a.drop i) (b.drop j)
          have h2 : i < a.length := List.mem_range.mp hi
          simp only [List.length_drop] at h1
          omega
        · have h1 := commonPrefixLen_le_right (a.drop i) (b.drop j)
          have h2 : j < b.length := List.mem_range.mp hj
          simp only [List.length_drop] at h1
          omega
      · exact hacc'

/-- Total number of matched characters in `difflib.SequenceMatcher.get_matching_blocks`
(junk-free case), with explicit recursion fuel: take the longest matching
block, then recurse on the pieces to its left and to its right.  The queue
order used in Python does not affect the sum. -/
def matchingSumFuel : Nat → List Char → List Char → Nat
  | 0, _, _ => 0
  | fuel + 1, a, b =>
    match find_longest_match a b with
    | (i, j, k) =>
      if k = 0 then 0
      else
        k + matchingSumFuel fuel (a.take i) (b.take j) +
          matchingSumFuel fuel (a.drop (i + k)) (b.drop (j + k))

/-- Total number of matched characters, run with enough fuel: every recursive
call strictly decreases the total length of the two pieces
(`find_longest_match_bounds` and `matchingSumFuel_congr` below), so a fuel of
`a.length + b.length` always reaches the base cases. -/
def matchingSum (a b : List Char) : Nat :=
  matchingSumFuel (a.length + b.length) a b

theorem matchingSumFuel_mono :
    ∀ (f : Nat) {a b : List Char} (g : Nat), a.length + b.length ≤ f → f ≤ g →
      matchingSumFuel f a b = matchingSumFuel g a b := by
  intro f
  induction f with
  | zero =>
    intro a b g hf _
    have ha : a = [] := List.eq_nil_of_length_eq_zero (by omega)
    have hb : b = [] := List.eq_nil_of_length_eq_zero (by omega)
    subst ha; subst hb
    cases g with
    | zero => rfl
    | succ g => simp [matchingSumFuel, find_longest_match]
  | succ f ih =>
    intro a b g hf hg
    cases g with
    | zero => omega
    | succ g =>
      simp only [matchingSumFuel]
      match hm : find_longest_match a b with
      | (i, j, k) =>
        by_cases hk : k = 0
        · simp [hk]
        · simp only [hk, if_false]
          have hb := find_longest_match_bounds a b
          rw [hm] at hb
          have hb1 : i + k ≤ a.length := hb.1
          have hb2 : j + k ≤ b.length := hb.2
          have e1 : matchingSumFuel f (a.take i) (b.take j) =
              matchingSumFuel g (a.take i) (b.take j) := by
            apply ih
            · simp only [List.length_take]; omega
            · omega
          have e2 : matchingSumFuel f (a.drop (i + k)) (b.drop (j + k)) =
              matchingSumFuel g (a.drop (i + k)) (b.drop (j + k)) := by
            apply ih
            · simp only [List.length_drop]; omega
            · omega
          rw [e1, e2]

/-- The fuel is irrelevant as soon as it dominates the total length, so
`matchingSum` computes the full matching-block recursion. -/
theorem matchingSumFuel_congr (f g : Nat) (a b : List Char)
    (hf : a.length + b.length ≤ f) (hg : a.length + b.length ≤ g) :
    matchingSumFuel f a b = matchingSumFuel g a b := by
  rcases Nat.le_total f g with h | h
  · exact matchingSumFuel_mono f g hf h
  · exact (matchingSumFuel_mono g f hg h).symm

/-- `difflib._calculate_ratio`: `2 * matches / length`, and `1` for two empty
sequences. -/
def calculate_ratio (matched length : Nat) : ℚ :=
  if length = 0 then 1 else mkRat (2 * matched) length

/-- `difflib.SequenceMatcher.ratio` on strings. -/
def ratio (a b : String) : ℚ :=
  calculate_ratio (matchingSum a.toList b.toList) (a.toList.length + b.toList.length)

/-- Number of characters of `a` that are also available in `b`, counted with
multiplicity: the `matches` count inside `difflib.SequenceMatcher.quick_ratio`. -/
def quick_ratio_matches (a b : List Char) : Nat :=
  a.dedup.foldl (fun acc c => acc + min (a.count c) (b.count c)) 0

/-- `difflib.SequenceMatcher.quick_ratio`. -/
def quick_ratio (a b : String) : ℚ :=
  calculate_ratio (quick_ratio_matches a.toList b.toList) (a.toList.length + b.toList.length)

/-- `difflib.SequenceMatcher.real_quick_ratio`. -/
def real_quick_ratio (a b : String) : ℚ :=
  calculate_ratio (min a.toList.length b.toList.length) (a.toList.length + b.toList.length)

/-- The filter applied to each possibility inside `difflib.get_close_matches`
(with `a := x` and `b := word`, as set by `set_seq1`/`set_seq2`). -/
def passesCutoff (x word : String) (cutoff : ℚ) : Prop :=
  cutoff ≤ real_quick_ratio x word ∧ cutoff ≤ quick_ratio x word ∧ cutoff ≤ ratio x word

instance (x word : String) (cutoff : ℚ) : Decidable (passesCutoff x word cutoff) := by
  unfold passesCutoff
  infer_instance

/-- Python's string comparison `a <= b`: code-point lexicographic order,
expressed on character lists (definitionally equal to the linear order on
`String`, see `pyStrLe_iff`, but evaluated structurally). -/
def pyStrLe (a b : String) : Prop :=
  a.toList ≤ b.toList

instance : DecidableRel pyStrLe := fun a b => by
  unfold pyStrLe
  infer_instance

theorem pyStrLe_iff (a b : String) : pyStrLe a b ↔ a ≤ b :=
  Iff.symm (String.le_iff_toList_le : a ≤ b ↔ a.toList ≤ b.toList)

instance : IsTotal String pyStrLe where
  total a b := by
    rw [pyStrLe_iff, pyStrLe_iff]
    exact le_total a b

instance : IsTrans String pyStrLe where
  trans a b c hab hbc := by
    rw [pyStrLe_iff] at *
    exact hab.trans hbc

instance : IsAntisymm String pyStrLe where
  antisymm a b hab hba := by
    rw [pyStrLe_iff] at *
    exact le_antisymm hab hba

instance : IsRefl String pyStrLe where
  refl a := (pyStrLe_iff a a).mpr le_rfl

/-- Python's comparison `p >= q` on `(score, string)` pairs, as used by
`heapq.nlargest` through tuple comparison. -/
def tupleGe (p q : ℚ × String) : Prop :=
  q.1 < p.1 ∨ (q.1 = p.1 ∧ pyStrLe q.2 p.2)

instance : DecidableRel tupleGe := fun p q => by
  unfold tupleGe
  infer_instance

instance : IsTotal (ℚ × String) tupleGe where
  total p q := by
    unfold tupleGe
    rcases lt_trichotomy p.1 q.1 with h | h | h
    · exact Or.inr (Or.inl h)
    · rcases total_of pyStrLe p.2 q.2 with h2 | h2
      · exact Or.inr (Or.inr ⟨h, h2⟩)
      · exact Or.inl (Or.inr ⟨h.symm, h2⟩)
    · exact Or.inl (Or.inl h)

instance : IsTrans (ℚ × String) tupleGe where
  trans p q r hpq hqr := by
    unfold tupleGe at *
    rcases hpq with h1 | ⟨h1, h1'⟩ <;> rcases hqr with h2 | ⟨h2, h2'⟩
    · exact Or.inl (h2.trans h1)
    · exact Or.inl (lt_of_eq_of_lt h2 h1)
    · exact Or.inl (lt_of_lt_of_eq h2 h1)
    · exact Or.inr ⟨h2.trans h1, Trans.trans h2' h1'⟩

/-- `heapq.nlargest n` on `(score, string)` pairs: a stable descending sort by
tuple comparison, truncated to the first `n` entries. -/
def nlargest (n : Nat) (l : List (ℚ × String)) : List (ℚ × String) :=
  (l.insertionSort tupleGe).take n

/-- The `result` list built inside `difflib.get_close_matches`: a
`(ratio, possibility)` pair for every possibility that passes the cutoff
filter, in input order. -/
def scoredList (word : String) (possibilities : List String) (cutoff : ℚ) :
    List (ℚ × String) :=
  possibilities.filterMap fun x =>
    if passesCutoff x word cutoff then some (ratio x word, x) else none

/-- `difflib.get_close_matches(word, possibilities, n, cutoff)`. -/
def get_close_matches (word : String) (possibilities : List String) (n : Nat)
    (cutoff : ℚ) : List String :=
  (nlargest n (scoredList word possibilities cutoff)).map Prod.snd

theorem mem_scoredList {word cutoff} {ps : List String} {p : ℚ × String}
    (hp : p ∈ scoredList word ps cutoff) :
    p.2 ∈ ps ∧ passesCutoff p.2 word cutoff ∧ p.1 = ratio p.2 word := by
  rw [scoredList, List.mem_filterMap] at hp
  obtain ⟨x, hx, hfx⟩ := hp
  by_cases h : passesCutoff x word cutoff
  · rw [if_pos h] at hfx
    cases hfx
    exact ⟨hx, h, rfl⟩
  · rw [if_neg h] at hfx
    cases hfx

theorem scoredList_mem {word cutoff} {ps : List String} {x : String}
    (hx : x ∈ ps) (h : passesCutoff x word cutoff) :
    (ratio x word, x) ∈ scoredList word ps cutoff := by
  rw [scoredList, List.mem_filterMap]
  exact ⟨x, hx, by rw [if_pos h]⟩

theorem mem_get_close_matches {word : String} {ps : List String} {n : Nat} {c : ℚ}
    {y : String} (hy : y ∈ get_close_matches word ps n c) :
    y ∈ ps ∧ passesCutoff y word c := by
  rw [get_close_matches, nlargest, List.mem_map] at hy
  obtain ⟨p, hp, rfl⟩ := hy
  have hp' : p ∈ scoredList word ps c :=
    (List.mem_insertionSort tupleGe).mp (List.mem_of_mem_take hp)
  have := mem_scoredList hp'
  exact ⟨this.1, this.2.1⟩

theorem get_close_matches_eq_nil_iff {word : String} {ps : List String} {n : Nat}
    {c : ℚ} (hn : 0 < n) :
    get_close_matches word ps n c = [] ↔ ∀ x ∈ ps, ¬ passesCutoff x word c := by
  rw [get_close_matches, nlargest, List.map_eq_nil_iff, List.take_eq_nil_iff]
  constructor
  · intro h x hx hpass
    rcases h with h | h
    · omega
    · have : (ratio x word, x) ∈ scoredList word ps c := scoredList_mem hx hpass
      rw [(List.perm_insertionSort tupleGe _).symm.mem_iff] at this
      rw [h] at this
      cases this
  · intro h
    right
    have : scoredList word ps c = [] := by
      rw [scoredList, List.filterMap_eq_nil_iff]
      intro x hx
      rw [if_neg (h x hx)]
    rw [this]
    rfl

theorem get_close_matches_head {word : String} {ps : List String} {n : Nat} {c : ℚ}
    {m : String} (h : (get_close_matches word ps n c).head? = some m) :
    m ∈ ps ∧ passesCutoff m word c ∧
      ∀ x ∈ ps, passesCutoff x word c → ratio x word ≤ ratio m word := by
  rw [get_close_matches, nlargest] at h
  set S := (scoredList word ps c).insertionSort tupleGe with hS
  have hsorted : S.Sorted tupleGe := List.sorted_insertionSort tupleGe _
  match hS' : S, n with
  | [], _ => simp at h
  | p :: rest, 0 => simp at h
  | p :: rest, Nat.succ k =>
    simp only [List.take_succ_cons, List.map_cons, List.head?_cons, Option.some.injEq] at h
    subst h
    have hpS : p ∈ scoredList word ps c := by
      rw [← List.mem_insertionSort tupleGe, ← hS]
      exact List.mem_cons_self p rest
    obtain ⟨hp1, hp2, hp3⟩ := mem_scoredList hpS
    refine ⟨hp1, hp2, ?_⟩
    intro x hx hpass
    have hxS : (ratio x word, x) ∈ p :: rest := by
      rw [hS]
      exact (List.mem_insertionSort tupleGe).mpr (scoredList_mem hx hpass)
    rcases List.mem_cons.mp hxS with hq | hq
    · subst hq
      exact le_rfl
    · have hge := (List.sorted_cons.mp hsorted).1 _ hq
      unfold tupleGe at hge
      rcases hge with hlt | ⟨heq, _⟩
      · exact le_of_lt (lt_of_lt_of_eq hlt hp3)
      · exact le_of_eq (heq.trans hp3)

/-! ### Cog model

Side effects (HTTP calls to the site API, chat messages, channel edits) are
reified as data, so each handler becomes a pure function from its inputs —
the command argument and the data fetched from the remote store — to the
effects it performs. -/

/-- Modelled from the spec: `bot.converters.OffTopicName.translate_name`
(the converter module is not under `src/`).  The spec describes it as a
reversible unicode-substitution normalization, i.e. a character-by-character
substitution, so the substitution table is kept as a parameter. -/
def translate_name (table : Char → Char) (s : String) : String :=
  String.mk (s.toList.map table)

/-- The normalization used in `search_command`:
`OffTopicName.translate_name(name, from_unicode=False).lower()`, with
`str.lower` modelled character-by-character (they agree on ASCII). -/
def normalize (table : Char → Char) (s : String) : String :=
  String.mk ((translate_name table s).toList.map Char.toLower)

/-- The rejection message of `add_command` (`BotConfig.prefix` comes from
`bot.constants`, which is not under `src/`, so it is a parameter). -/
def too_similar_message (botPrefix name m : String) : String :=
  ":x: The channel name `" ++ name ++ "` is too similar to `" ++ m ++
    "`, and thus was not added. Use `" ++ botPrefix ++
    "otn forceadd` to override this check."

/-- The confirmation message of `_add_name`. -/
def added_message (name : String) : String :=
  ":ok_hand: Added `" ++ name ++ "` to the names list."

/-- The confirmation message of `delete_command`. -/
def removed_message (name : String) : String :=
  ":ok_hand: Removed `" ++ name ++ "` from the names list."

/-- Observable effects of one run of the add/forceadd handlers: the names
POSTed to `bot/off-topic-channel-names`, and the chat message sent. -/
structure AddRun where
  posted : List String
  message : String
  deriving DecidableEq

/-- `OffTopicNames._add_name`: POST the name to the site storage, confirm. -/
def _add_name (name : String) : AddRun :=
  { posted := [name], message := added_message name }

/-- `OffTopicNames.add_command`, as a function of the candidate `name` and of
the fetched `existing_names`. -/
def add_command (botPrefix name : String) (existing_names : List String) : AddRun :=
  let close_match := get_close_matches name existing_names 1 (mkRat 8 10)
  match close_match with
  | m :: _ => { posted := [], message := too_similar_message botPrefix name m }
  | [] => _add_name name

/-- `OffTopicNames.force_add_command`: delegates to `_add_name` directly. -/
def force_add_command (name : String) : AddRun :=
  _add_name name

/-- Observable effects of one run of `delete_command`. -/
structure DeleteRun where
  delete_paths : List String
  message : String
  deriving DecidableEq

/-- `OffTopicNames.delete_command`. -/
def delete_command (name : String) : DeleteRun :=
  { delete_paths := ["bot/off-topic-channel-names/" ++ name],
    message := removed_message name }

/-- What a list/search handler sends: either a paginated list of lines, or a
single embed carrying an empty-state description. -/
inductive PageOutcome
  | paginated (lines : List String)
  | empty_state (description : String)
  deriving DecidableEq

/-- Observable effects of one run of `list_command`: the count interpolated
into the embed title, and what gets sent. -/
structure ListRun where
  title_count : Nat
  outcome : PageOutcome
  deriving DecidableEq

/-- `OffTopicNames.list_command`, as a function of the fetched `result`. -/
def list_command (result : List String) : ListRun :=
  let lines := (result.map fun name => "• " ++ name).insertionSort pyStrLe
  { title_count := result.length,
    outcome :=
      if result ≠ [] then .paginated lines
      else .empty_state "Hmmm, seems like there's nothing here yet." }

/-- One step of a Python dict comprehension: bind key `k` to value `v`,
overwriting the value (but keeping the position) of an existing key. -/
def dictInsert (d : List (String × String)) (k v : String) : List (String × String) :=
  match d with
  | [] => [(k, v)]
  | (k', v') :: rest => if k' = k then (k, v) :: rest else (k', v') :: dictInsert rest k v

/-- The dict comprehension in `search_command`: normalized names as keys,
the corresponding returned names as values; a later name with the same
normalized key overwrites the earlier value. -/
def buildDict (table : Char → Char) (names : List String) : List (String × String) :=
  names.foldl (fun d n => dictInsert d (normalize table n) n) []

/-- Python dict subscript `d[k]` (total, with a default for absent keys). -/
def dictGet (d : List (String × String)) (k : String) : String :=
  match d with
  | [] => ""
  | (k', v) :: rest => if k' = k then v else dictGet rest k

/-- Python's substring containment `q in s`. -/
def containsSub (s q : String) : Bool :=
  (List.range (s.length + 1)).any fun i => (s.toList.drop i).take q.length == q.toList

/-- The `in_matches` set of `search_command`: normalized keys containing the
normalized query as a substring (`result.keys()` in first-insertion order; the
subsequent union and sort make the order immaterial). -/
def in_matches (table : Char → Char) (query : String) (names : List String) :
    List String :=
  ((buildDict table names).map Prod.fst).filter fun name =>
    containsSub name (normalize table query)

/-- The `close_matches` list of `search_command`. -/
def close_matches (table : Char → Char) (query : String) (names : List String) :
    List String :=
  get_close_matches (normalize table query) ((buildDict table names).map Prod.fst)
    10 (mkRat 7 10)

/-- The `lines` of `search_command`:
`sorted(f"• {result[name]}" for name in in_matches.union(close_matches))` —
the union is a Python set, modelled by deduplicating the concatenation before
mapping back to display names and sorting. -/
def searchLines (table : Char → Char) (query : String) (names : List String) :
    List String :=
  (((in_matches table query names ++ close_matches table query names).dedup).map
    fun name => "• " ++ dictGet (buildDict table names) name).insertionSort pyStrLe

/-- `OffTopicNames.search_command`, as a function of the substitution table,
the `query` argument and the fetched name list. -/
def search_command (table : Char → Char) (query : String) (names : List String) :
    PageOutcome :=
  let lines := searchLines table query names
  if lines ≠ [] then .paginated lines else .empty_state "Nothing found."

/-- Errors a scheduled `update_names` run can raise. -/
inductive RunError
  | responseCode (status : Nat)
  | valueError
  deriving DecidableEq

/-- Observable effects of one scheduled `update_names` run: error log lines,
the exception propagated out of the task body (if any), and the channel edits
performed, as `(channel id, new name)` pairs in execution order. -/
structure UpdateRun where
  error_logs : List String
  raised : Option RunError
  edits : List (Nat × String)
  deriving DecidableEq

/-- `OffTopicNames.update_names`, as a function of the three configured
channel ids (`CHANNELS` is built from `bot.constants`, which is not under
`src/`) and of the remote fetch outcome — a `ResponseCodeError` status, or the
fetched list.  Unpacking the fetched list into
`channel_0_name, channel_1_name, channel_2_name` raises `ValueError` unless
the list has exactly three elements, and that happens before any edit. -/
def update_names (channel_0 channel_1 channel_2 : Nat)
    (fetched : Except Nat (List String)) : UpdateRun :=
  match fetched with
  | .error status =>
      { error_logs :=
          ["Failed to get new off topic channel names: code " ++ toString status],
        raised := some (.responseCode status),
        edits := [] }
  | .ok [channel_0_name, channel_1_name, channel_2_name] =>
      { error_logs := [],
        raised := none,
        edits := [(channel_0, "ot0-" ++ channel_0_name),
                  (channel_1, "ot1-" ++ channel_1_name),
                  (channel_2, "ot2-" ++ channel_2_name)] }
  | .ok _ =>
      { error_logs := [], raised := some .valueError, edits := [] }

/-- Modelled from the spec: the retry behaviour of the `discord.ext.tasks`
scheduler combined with the registration
`self.update_names.add_exception_type(ResponseCodeError)` in
`OffTopicNames.__init__` — the scheduler restarts the task with exponential
backoff exactly for the registered exception types, so for `ResponseCodeError`
but not for `ValueError`. -/
def scheduler_retries : RunError → Bool
  | .responseCode _ => true
  | .valueError => false

/-! ### Supporting lemmas -/

theorem lex_append_left_iff (p l1 l2 : List Char) :
    List.Lex (· < ·) (p ++ l1) (p ++ l2) ↔ List.Lex (· < ·) l1 l2 := by
  induction p with
  | nil => exact Iff.rfl
  | cons c p ih => rw [List.cons_append, List.cons_append, List.Lex.cons_iff, ih]

/-- Appending a common front does not change how two strings compare. -/
theorem pyStrLe_append_left_iff (p a b : String) :
    pyStrLe (p ++ a) (p ++ b) ↔ pyStrLe a b := by
  unfold pyStrLe
  rw [le_iff_lt_or_eq, le_iff_lt_or_eq]
  have hlt : (p ++ a).toList < (p ++ b).toList ↔ a.toList < b.toList :=
    lex_append_left_iff p.toList a.toList b.toList
  have heq : (p ++ a).toList = (p ++ b).toList ↔ a.toList = b.toList := by
    constructor
    · intro h
      exact List.append_cancel_left (h : p.toList ++ a.toList = p.toList ++ b.toList)
    · intro h
      show p.toList ++ a.toList = p.toList ++ b.toList
      rw [h]
  rw [hlt, heq]

/-- Prefixing every entry with the same bullet is injective. -/
theorem bullet_injective : Function.Injective (fun name => "• " ++ name : String → String) := by
  intro a b h
  have h' : ("• " ++ a).toList = ("• " ++ b).toList := congrArg String.toList h
  exact String.toList_inj.mp
    (List.append_cancel_left (h' : "• ".toList ++ a.toList = "• ".toList ++ b.toList))

/-- `containsSub` is Python's substring containment. -/
theorem containsSub_iff (s q : String) :
    containsSub s q = true ↔ ∃ pre post, s.toList = pre ++ q.toList ++ post := by
  unfold containsSub
  rw [List.any_eq_true]
  constructor
  · rintro ⟨i, _, hbeq⟩
    rw [beq_iff_eq] at hbeq
    refine ⟨s.toList.take i, (s.toList.drop i).drop q.length, ?_⟩
    conv_lhs => rw [← List.take_append_drop i s.toList]
    conv_lhs => rw [← List.take_append_drop q.length (s.toList.drop i)]
    rw [hbeq, List.append_assoc]
  · rintro ⟨pre, post, hsplit⟩
    refine ⟨pre.length, ?_, ?_⟩
    · rw [List.mem_range]
      have hlen := congrArg List.length hsplit
      simp only [List.length_append] at hlen
      have : s.length = s.toList.length := rfl
      omega
    · rw [beq_iff_eq, hsplit, List.append_assoc, List.drop_left]
      have : q.length = q.toList.length := rfl
      rw [this, List.take_left]

theorem dictInsert_entry {d : List (String × String)} {k v : String}
    {p : String × String} (hp : p ∈ dictInsert d k v) : p ∈ d ∨ p = (k, v) := by
  induction d with
  | nil =>
    simp only [dictInsert, List.mem_singleton] at hp
    exact Or.inr hp
  | cons e rest ih =>
    obtain ⟨k', v'⟩ := e
    simp only [dictInsert] at hp
    split at hp
    · rcases List.mem_cons.mp hp with h | h
      · exact Or.inr h
      · exact Or.inl (List.mem_cons_of_mem _ h)
    · rcases List.mem_cons.mp hp with h | h
      · exact Or.inl (h ▸ List.mem_cons_self _ _)
      · rcases ih h with h' | h'
        · exact Or.inl (List.mem_cons_of_mem _ h')
        · exact Or.inr h'

/-- Every entry of the search dict is a fetched name keyed by its own
normalization. -/
theorem buildDict_entry {table : Char → Char} {names : List String}
    {p : String × String} (hp : p ∈ buildDict table names) :
    p.2 ∈ names ∧ normalize table p.2 = p.1 := by
  unfold buildDict at hp
  revert p hp
  apply foldl_invariant
    (fun d : List (String × String) => ∀ p ∈ d, p.2 ∈ names ∧ normalize table p.2 = p.1)
  · intro p hp
    cases hp
  · intro acc x hx hacc p hp
    rcases dictInsert_entry hp with h | h
    · exact hacc p h
    · subst h
      exact ⟨hx, rfl⟩

theorem dictGet_mem {d : List (String × String)} {k : String}
    (hk : k ∈ d.map Prod.fst) : (k, dictGet d k) ∈ d := by
  induction d with
  | nil => cases hk
  | cons e rest ih =>
    obtain ⟨k', v'⟩ := e
    simp only [dictGet]
    by_cases h : k' = k
    · subst h
      rw [if_pos rfl]
      exact List.mem_cons_self _ _
    · rw [if_neg h]
      apply List.mem_cons_of_mem
      apply ih
      rcases List.mem_map.mp hk with ⟨q, hq, hqk⟩
      rcases List.mem_cons.mp hq with h' | h'
      · exact absurd (by rw [h'] at hqk; exact hqk) h
      · exact List.mem_map.mpr ⟨q, h', hqk⟩

theorem dictGet_dictInsert_self (d : List (String × String)) (k v : String) :
    dictGet (dictInsert d k v) k = v := by
  induction d with
  | nil => simp [dictInsert, dictGet]
  | cons e rest ih =>
    obtain ⟨k', v'⟩ := e
    simp only [dictInsert]
    by_cases h : k' = k
    · rw [if_pos h]
      simp [dictGet]
    · rw [if_neg h]
      simp only [dictGet, if_neg h]
      exact ih

theorem dictGet_dictInsert_ne (d : List (String × String)) {k k' : String} (v : String)
    (h : k ≠ k') : dictGet (dictInsert d k v) k' = dictGet d k' := by
  induction d with
  | nil => simp [dictInsert, dictGet, h]
  | cons e rest ih =>
    obtain ⟨k'', v''⟩ := e
    simp only [dictInsert]
    by_cases h' : k'' = k
    · rw [if_pos h']
      simp only [dictGet, if_neg h]
      rw [if_neg (show k'' ≠ k' by rw [h']; exact h)]
    · rw [if_neg h']
      simp only [dictGet]
      by_cases h'' : k'' = k'
      · rw [if_pos h'', if_pos h'']
      · rw [if_neg h'', if_neg h'']
        exact ih

theorem mem_keys_dictInsert_self (d : List (String × String)) (k v : String) :
    k ∈ (dictInsert d k v).map Prod.fst := by
  induction d with
  | nil => simp [dictInsert]
  | cons e rest ih =>
    obtain ⟨k', v'⟩ := e
    simp only [dictInsert]
    by_cases h : k' = k
    · rw [if_pos h]
      simp
    · rw [if_neg h]
      simp only [List.map_cons, List.mem_cons]
      exact Or.inr ih

theorem mem_keys_dictInsert (d : List (String × String)) (k' v : String) {k : String}
    (hk : k ∈ d.map Prod.fst) : k ∈ (dictInsert d k' v).map Prod.fst := by
  induction d with
  | nil => cases hk
  | cons e rest ih =>
    obtain ⟨k'', v''⟩ := e
    simp only [List.map_cons, List.mem_cons] at hk
    simp only [dictInsert]
    by_cases h : k'' = k'
    · rw [if_pos h]
      simp only [List.map_cons, List.mem_cons]
      rcases hk with hk | hk
      · exact Or.inl (hk.trans h)
      · exact Or.inr hk
    · rw [if_neg h]
      simp only [List.map_cons, List.mem_cons]
      rcases hk with hk | hk
      · exact Or.inl hk
      · exact Or.inr (ih hk)

theorem union_sub_keys {table : Char → Char} {query : String} {names : List String}
    {k : String}
    (hk : k ∈ (in_matches table query names ++ close_matches table query names).dedup) :
    k ∈ (buildDict table names).map Prod.fst := by
  rw [List.mem_dedup, List.mem_append] at hk
  rcases hk with hk | hk
  · exact (List.mem_filter.mp hk).1
  · exact (mem_get_close_matches hk).1

/-- Membership in the displayed search lines: a line is shown for exactly the
normalized keys that contain the normalized query as a substring or are among
the close matches, rendered through the key-to-display-name dict. -/
theorem mem_searchLines_iff (table : Char → Char) (query : String)
    (names : List String) (s : String) :
    s ∈ searchLines table query names ↔
      ∃ k, k ∈ (buildDict table names).map Prod.fst ∧
        (containsSub k (normalize table query) = true ∨
          k ∈ close_matches table query names) ∧
        s = "• " ++ dictGet (buildDict table names) k := by
  unfold searchLines
  rw [List.mem_insertionSort, List.mem_map]
  constructor
  · rintro ⟨k, hk, rfl⟩
    have hkeys := union_sub_keys hk
    rw [List.mem_dedup, List.mem_append] at hk
    rcases hk with hk | hk
    · exact ⟨k, hkeys, Or.inl (List.mem_filter.mp hk).2, rfl⟩
    · exact ⟨k, hkeys, Or.inr hk, rfl⟩
  · rintro ⟨k, hkeys, hor, rfl⟩
    refine ⟨k, ?_, rfl⟩
    rw [List.mem_dedup, List.mem_append]
    rcases hor with h | h
    · exact Or.inl (List.mem_filter.mpr ⟨hkeys, h⟩)
    · exact Or.inr h

theorem searchLines_sorted (table : Char → Char) (query : String)
    (names : List String) : (searchLines table query names).Sorted pyStrLe :=
  List.sorted_insertionSort pyStrLe _

theorem searchLines_nodup (table : Char → Char) (query : String)
    (names : List String) : (searchLines table query names).Nodup := by
  unfold searchLines
  rw [(List.perm_insertionSort pyStrLe _).nodup_iff]
  apply List.Nodup.map_on
  · intro x hx y hy hxy
    have hxv := buildDict_entry (dictGet_mem (union_sub_keys hx))
    have hyv := buildDict_entry (dictGet_mem (union_sub_keys hy))
    have hvals : dictGet (buildDict table names) x = dictGet (buildDict table names) y :=
      bullet_injective hxy
    calc x = normalize table (dictGet (buildDict table names) x) := hxv.2.symm
      _ = normalize table (dictGet (buildDict table names) y) := by rw [hvals]
      _ = y := hyv.2
  · exact List.nodup_dedup _

theorem search_command_paginated (table : Char → Char) (query : String)
    (names : List String) (h : searchLines table query names ≠ []) :
    search_command table query names = .paginated (searchLines table query names) := by
  unfold search_command
  rw [if_pos h]

theorem search_command_empty (table : Char → Char) (query : String)
    (names : List String) (h : searchLines table query names = []) :
    search_command table query names = .empty_state "Nothing found." := by
  unfold search_command
  rw [if_neg (by simp [h])]

theorem add_command_of_close_match (botPrefix : String) {name : String}
    {existing : List String} {m : String} {t : List String}
    (hg : get_close_matches name existing 1 (mkRat 8 10) = m :: t) :
    add_command botPrefix name existing =
      { posted := [], message := too_similar_message botPrefix name m } := by
  unfold add_command
  rw [hg]

theorem add_command_of_no_close_match {botPrefix name : String} {existing : List String}
    (hg : get_close_matches name existing 1 (mkRat 8 10) = []) :
    add_command botPrefix name existing = _add_name name := by
  unfold add_command
  rw [hg]

/-- After the last fetched name carrying a given normalized key, the dict
value at that key is that very name, and the key is present. -/
theorem buildDict_last_value (table : Char → Char) (l1 : List String) (n2 : String)
    (l3 : List String)
    (hafter : ∀ x ∈ l3, normalize table x ≠ normalize table n2) :
    dictGet (buildDict table (l1 ++ n2 :: l3)) (normalize table n2) = n2 ∧
    normalize table n2 ∈ (buildDict table (l1 ++ n2 :: l3)).map Prod.fst := by
  unfold buildDict
  rw [List.foldl_append, List.foldl_cons]
  apply foldl_invariant
    (fun d : List (String × String) =>
      dictGet d (normalize table n2) = n2 ∧
      normalize table n2 ∈ d.map Prod.fst)
  · exact ⟨dictGet_dictInsert_self _ _ _, mem_keys_dictInsert_self _ _ _⟩
  · intro acc x hx hacc
    refine ⟨?_, mem_keys_dictInsert _ _ _ hacc.2⟩
    rw [dictGet_dictInsert_ne _ _ (hafter x hx)]
    exact hacc.1

/-! ### Claims -/

/-- C1: for every candidate name and every fetched list of existing names,
the add command rejects the name iff the similarity comparison at threshold
0.8 (`get_close_matches` with `n = 1`) finds a close match among the existing
names; on rejection it reports the single closest match — an existing name
passing the cutoff whose ratio is maximal among cutoff-passers — and POSTs
nothing; otherwise it POSTs exactly the candidate name and confirms. -/
theorem C1_add_rejects_iff_close_match (botPrefix name : String)
    (existing_names : List String) :
    ((∃ x ∈ existing_names, passesCutoff x name (mkRat 8 10)) →
      (add_command botPrefix name existing_names).posted = [] ∧
      ∃ m ∈ existing_names, passesCutoff m name (mkRat 8 10) ∧
        (∀ x ∈ existing_names, passesCutoff x name (mkRat 8 10) →
          ratio x name ≤ ratio m name) ∧
        (add_command botPrefix name existing_names).message =
          too_similar_message botPrefix name m) ∧
    ((∀ x ∈ existing_names, ¬ passesCutoff x name (mkRat 8 10)) →
      add_command botPrefix name existing_names = _add_name name ∧
      (add_command botPrefix name existing_names).posted = [name] ∧
      (add_command botPrefix name existing_names).message = added_message name) := by
  constructor
  · intro hex
    rcases hg : get_close_matches name existing_names 1 (mkRat 8 10) with _ | ⟨m, t⟩
    · obtain ⟨x, hx, hpass⟩ := hex
      exact absurd hpass ((get_close_matches_eq_nil_iff Nat.one_pos).mp hg x hx)
    · have heq := add_command_of_close_match botPrefix hg
      have hhead := get_close_matches_head (m := m)
        (show (get_close_matches name existing_names 1 (mkRat 8 10)).head? = some m by
          rw [hg]; rfl)
      exact ⟨by rw [heq], m, hhead.1, hhead.2.1, hhead.2.2, by rw [heq]⟩
  · intro hnone
    have hg : get_close_matches name existing_names 1 (mkRat 8 10) = [] :=
      (get_close_matches_eq_nil_iff Nat.one_pos).mpr hnone
    rw [add_command_of_no_close_match hg]
    exact ⟨rfl, rfl, rfl⟩

set_option maxRecDepth 400000 in
/-- Witness for C1: `appel` is rejected against `["apple", "peach"]` without
being POSTed, while `xyzzy` is added. -/
theorem C1_witness :
    (add_command "!" "appel" ["apple", "peach"]).posted = [] ∧
    add_command "!" "xyzzy" ["apple"] = _add_name "xyzzy" :=
  ⟨((C1_add_rejects_iff_close_match "!" "appel" ["apple", "peach"]).1
      ⟨"apple", by decide, by decide⟩).1,
    ((C1_add_rejects_iff_close_match "!" "xyzzy" ["apple"]).2 (by decide)).1⟩

/-- C2: the force-add command POSTs the candidate name to the remote store and
confirms; it performs no similarity check — it is a function of the name
alone and never consults the existing names. -/
theorem C2_force_add_always_adds (name : String) :
    force_add_command name = _add_name name ∧
    (force_add_command name).posted = [name] ∧
    (force_add_command name).message = added_message name :=
  ⟨rfl, rfl, rfl⟩

/-- C5: a successful scheduled run with fetched names `[n0, n1, n2]` renames
channel slot 0 to `ot0-<n0>`, slot 1 to `ot1-<n1>`, slot 2 to `ot2-<n2>`, in
slot order, logging no error and raising nothing. -/
theorem C5_update_names_renames_slots (c0 c1 c2 : Nat) (n0 n1 n2 : String) :
    update_names c0 c1 c2 (.ok [n0, n1, n2]) =
      { error_logs := [], raised := none,
        edits := [(c0, "ot0-" ++ n0), (c1, "ot1-" ++ n1), (c2, "ot2-" ++ n2)] } :=
  rfl

/-- C6: a response-code failure of the remote fetch is logged and re-raised
as a `ResponseCodeError` — an exception type the scheduler retries with
backoff — and no channel edit happens in that run. -/
theorem C6_fetch_error_logged_reraised_no_rename (c0 c1 c2 status : Nat) :
    update_names c0 c1 c2 (.error status) =
      { error_logs :=
          ["Failed to get new off topic channel names: code " ++ toString status],
        raised := some (.responseCode status),
        edits := [] } ∧
    scheduler_retries (.responseCode status) = true :=
  ⟨rfl, rfl⟩

/-- C7: the delete command issues exactly one DELETE request, for the exact
name, and then confirms; it has no failure branch of its own. -/
theorem C7_delete_one_request_and_confirm (name : String) :
    delete_command name =
      { delete_paths := ["bot/off-topic-channel-names/" ++ name],
        message := removed_message name } ∧
    (delete_command name).delete_paths.length = 1 :=
  ⟨rfl, rfl⟩

/-- C8: if the fetched list does not have exactly 3 elements, the run raises
(`ValueError`, from tuple unpacking) before any rename; channel edits happen
only when the remote store returned exactly 3 names. -/
theorem C8_unpack_guard (c0 c1 c2 : Nat) (l : List String) :
    (l.length ≠ 3 →
      update_names c0 c1 c2 (.ok l) =
        { error_logs := [], raised := some .valueError, edits := [] }) ∧
    ((update_names c0 c1 c2 (.ok l)).edits ≠ [] → l.length = 3) := by
  constructor
  · intro hne
    match l with
    | [] => rfl
    | [a] => rfl
    | [a, b] => rfl
    | [a, b, c] => simp at hne
    | a :: b :: c :: d :: rest => rfl
  · intro hne
    match l with
    | [] => exact absurd rfl hne
    | [a] => exact absurd rfl hne
    | [a, b] => exact absurd rfl hne
    | [a, b, c] => rfl
    | a :: b :: c :: d :: rest => exact absurd rfl hne

/-- Witness for C8: a 1-element fetch raises `ValueError` and performs no
edit. -/
theorem C8_witness :
    update_names 0 1 2 (.ok ["a"]) =
      { error_logs := [], raised := some .valueError, edits := [] } :=
  (C8_unpack_guard 0 1 2 ["a"]).1 (by decide)

theorem list_command_outcome (result : List String) :
    (list_command result).outcome =
      if result ≠ [] then
        .paginated ((result.map fun name => "• " ++ name).insertionSort pyStrLe)
      else .empty_state "Hmmm, seems like there's nothing here yet." :=
  rfl

/-- C4: the lines displayed by the list command are exactly the fetched names,
sorted lexicographically, as bulleted lines; the empty-state message is shown
iff the fetched result is empty. -/
theorem C4_list_sorted_and_empty_iff (result : List String) :
    (result ≠ [] →
      (list_command result).outcome =
        .paginated ((result.insertionSort pyStrLe).map fun name => "• " ++ name)) ∧
    ((list_command result).outcome =
        .empty_state "Hmmm, seems like there's nothing here yet." ↔ result = []) ∧
    (∀ lines, (list_command result).outcome = .paginated lines →
      lines.Sorted pyStrLe ∧ List.Perm lines (result.map fun name => "• " ++ name)) := by
  have hmap : (result.insertionSort pyStrLe).map (fun name => "• " ++ name) =
      (result.map fun name => "• " ++ name).insertionSort pyStrLe := by
    apply List.map_insertionSort
    intro a _ b _
    exact (pyStrLe_append_left_iff "• " a b).symm
  refine ⟨?_, ?_, ?_⟩
  · intro hne
    rw [list_command_outcome, if_pos hne, hmap]
  · rw [list_command_outcome]
    by_cases hres : result = []
    · simp [hres]
    · simp [hres]
  · intro lines hl
    rw [list_command_outcome] at hl
    by_cases hres : result = []
    · rw [if_neg (by simp [hres])] at hl
      cases hl
    · rw [if_pos hres] at hl
      injection hl with h
      subst h
      exact ⟨List.sorted_insertionSort pyStrLe _, List.perm_insertionSort pyStrLe _⟩

set_option maxRecDepth 40000 in
/-- Witness for C4: `["b", "a"]` is displayed as the sorted bulleted lines
`["• a", "• b"]`, and an empty fetch shows the empty-state message. -/
theorem C4_witness :
    (list_command ["b", "a"]).outcome = .paginated ["• a", "• b"] ∧
    (list_command ([] : List String)).outcome =
      .empty_state "Hmmm, seems like there's nothing here yet." :=
  ⟨((C4_list_sorted_and_empty_iff ["b", "a"]).1 (by decide)).trans (by decide),
    (C4_list_sorted_and_empty_iff ([] : List String)).2.1.mpr rfl⟩

/-- C10: the list command deduplicates nothing: the embed-title count is the
number of fetched names, and a name fetched `k` times yields `k` identical
lines (counts are preserved). -/
theorem C10_list_multiplicity (result : List String) :
    (list_command result).title_count = result.length ∧
    ∀ lines, (list_command result).outcome = .paginated lines →
      lines.length = result.length ∧
      ∀ name, lines.count ("• " ++ name) = result.count name := by
  refine ⟨rfl, ?_⟩
  intro lines hl
  rw [list_command_outcome] at hl
  by_cases hres : result = []
  · rw [if_neg (by simp [hres])] at hl
    cases hl
  · rw [if_pos hres] at hl
    injection hl with h
    subst h
    constructor
    · rw [List.length_insertionSort, List.length_map]
    · intro name
      rw [(List.perm_insertionSort pyStrLe _).count_eq]
      exact List.count_map_of_injective result _ bullet_injective name

set_option maxRecDepth 40000 in
/-- Witness for C10: the duplicate name `dup` fetched twice yields two
identical lines and a total count of 2. -/
theorem C10_witness :
    ["• dup", "• dup"].length = (["dup", "dup"] : List String).length ∧
    ["• dup", "• dup"].count ("• " ++ "dup") = (["dup", "dup"] : List String).count "dup" :=
  ⟨((C10_list_multiplicity ["dup", "dup"]).2 ["• dup", "• dup"] (by decide)).1,
    ((C10_list_multiplicity ["dup", "dup"]).2 ["• dup", "• dup"] (by decide)).2 "dup"⟩

/-- C3: the search command's displayed set is exactly the union of (a) the
normalized keys containing the normalized query as a substring and (b) the
top-10 close matches at cutoff 0.70 against the normalized keys, mapped back
to the stored display names, deduplicated and sorted; the empty-state message
is shown iff that union is empty. -/
theorem C3_search_union (table : Char → Char) (query : String) (names : List String) :
    (∀ lines, search_command table query names = .paginated lines →
      lines.Sorted pyStrLe ∧ lines.Nodup ∧
      ∀ s, s ∈ lines ↔
        ∃ k, k ∈ (buildDict table names).map Prod.fst ∧
          ((∃ pre post, k.toList = pre ++ (normalize table query).toList ++ post) ∨
            k ∈ get_close_matches (normalize table query)
              ((buildDict table names).map Prod.fst) 10 (mkRat 7 10)) ∧
          s = "• " ++ dictGet (buildDict table names) k) ∧
    (search_command table query names = .empty_state "Nothing found." ↔
      ∀ k ∈ (buildDict table names).map Prod.fst,
        (¬ ∃ pre post, k.toList = pre ++ (normalize table query).toList ++ post) ∧
        k ∉ get_close_matches (normalize table query)
          ((buildDict table names).map Prod.fst) 10 (mkRat 7 10)) := by
  constructor
  · intro lines hl
    by_cases hL : searchLines table query names = []
    · rw [search_command_empty table query names hL] at hl
      cases hl
    · rw [search_command_paginated table query names hL] at hl
      injection hl with h
      subst h
      refine ⟨searchLines_sorted table query names, searchLines_nodup table query names, ?_⟩
      intro s
      rw [mem_searchLines_iff]
      constructor
      · rintro ⟨k, h1, h2, h3⟩
        refine ⟨k, h1, ?_, h3⟩
        rcases h2 with h | h
        · exact Or.inl ((containsSub_iff k (normalize table query)).mp h)
        · exact Or.inr h
      · rintro ⟨k, h1, h2, h3⟩
        refine ⟨k, h1, ?_, h3⟩
        rcases h2 with h | h
        · exact Or.inl ((containsSub_iff k (normalize table query)).mpr h)
        · exact Or.inr h
  · constructor
    · intro h k hk
      by_cases hL : searchLines table query names = []
      · constructor
        · intro hsub
          have hmem : ("• " ++ dictGet (buildDict table names) k) ∈
              searchLines table query names :=
            (mem_searchLines_iff table query names _).mpr
              ⟨k, hk, Or.inl ((containsSub_iff k (normalize table query)).mpr hsub), rfl⟩
          rw [hL] at hmem
          cases hmem
        · intro hclose
          have hmem : ("• " ++ dictGet (buildDict table names) k) ∈
              searchLines table query names :=
            (mem_searchLines_iff table query names _).mpr ⟨k, hk, Or.inr hclose, rfl⟩
          rw [hL] at hmem
          cases hmem
      · rw [search_command_paginated table query names hL] at h
        cases h
    · intro hall
      apply search_command_empty
      rw [List.eq_nil_iff_forall_not_mem]
      intro s hs
      obtain ⟨k, hk, hor, rfl⟩ := (mem_searchLines_iff table query names s).mp hs
      rcases hor with h | h
      · exact (hall k hk).1 ((containsSub_iff k (normalize table query)).mp h)
      · exact (hall k hk).2 h

set_option maxRecDepth 400000 in
/-- Witness for C3: searching `APP` over `["Apple", "puppy"]` paginates the
sorted singleton `["• Apple"]` whose element satisfies the union
characterization, and searching `zz` over `["Apple"]` shows the empty state. -/
theorem C3_witness :
    (["• Apple"] : List String).Sorted pyStrLe ∧
    ("• Apple" ∈ (["• Apple"] : List String) ↔
      ∃ k, k ∈ (buildDict id ["Apple", "puppy"]).map Prod.fst ∧
        ((∃ pre post, k.toList = pre ++ (normalize id "APP").toList ++ post) ∨
          k ∈ get_close_matches (normalize id "APP")
            ((buildDict id ["Apple", "puppy"]).map Prod.fst) 10 (mkRat 7 10)) ∧
        "• Apple" = "• " ++ dictGet (buildDict id ["Apple", "puppy"]) k) ∧
    search_command id "zz" ["Apple"] = .empty_state "Nothing found." := by
  have h1 := (C3_search_union id "APP" ["Apple", "puppy"]).1 ["• Apple"] (by decide)
  have hall : ∀ k ∈ (buildDict id ["Apple"]).map Prod.fst,
      (¬ ∃ pre post, k.toList = pre ++ (normalize id "zz").toList ++ post) ∧
      k ∉ get_close_matches (normalize id "zz")
        ((buildDict id ["Apple"]).map Prod.fst) 10 (mkRat 7 10) := by
    intro k hk
    have hkeys : (buildDict id ["Apple"]).map Prod.fst = ["apple"] := by decide
    rw [hkeys, List.mem_singleton] at hk
    subst hk
    constructor
    · rintro ⟨pre, post, hcontra⟩
      have hc : containsSub "apple" (normalize id "zz") = true :=
        (containsSub_iff _ _).mpr ⟨pre, post, hcontra⟩
      exact absurd hc (by decide)
    · decide
  exact ⟨h1.1, h1.2.2 "• Apple", (C3_search_union id "zz" ["Apple"]).2.mpr hall⟩

/-- C9: when a fetched name `n1` is followed later in the response by some
`n2` with the same normalized key, and no later name carries that key, the
search dict maps the key to `n2`; if `n1 ≠ n2` then no query ever displays
`n1` — it is unreachable through search — while querying `n2` itself does
display `n2`. -/
theorem C9_search_shadowing (table : Char → Char) (names : List String)
    (n1 n2 : String) (l1 l2 l3 : List String)
    (hsplit : names = l1 ++ n1 :: (l2 ++ n2 :: l3))
    (hkey : normalize table n1 = normalize table n2)
    (hlast : ∀ x ∈ l3, normalize table x ≠ normalize table n2)
    (hne : n1 ≠ n2) :
    dictGet (buildDict table names) (normalize table n1) = n2 ∧
    (∀ query lines, search_command table query names = .paginated lines →
      "• " ++ n1 ∉ lines) ∧
    (∃ lines, search_command table n2 names = .paginated lines ∧
      "• " ++ n2 ∈ lines) := by
  have hsplit' : names = (l1 ++ n1 :: l2) ++ n2 :: l3 := by
    rw [hsplit, List.append_assoc, List.cons_append]
  have hlv := buildDict_last_value table (l1 ++ n1 :: l2) n2 l3 hlast
  rw [← hsplit'] at hlv
  have hget : dictGet (buildDict table names) (normalize table n1) = n2 := by
    rw [hkey]
    exact hlv.1
  refine ⟨hget, ?_, ?_⟩
  · intro query lines hl hmem
    by_cases hL : searchLines table query names = []
    · rw [search_command_empty table query names hL] at hl
      cases hl
    · rw [search_command_paginated table query names hL] at hl
      injection hl with h
      subst h
      obtain ⟨k, hk, _, heq⟩ := (mem_searchLines_iff table query names _).mp hmem
      have hval : n1 = dictGet (buildDict table names) k := bullet_injective heq
      have hent := buildDict_entry (dictGet_mem hk)
      have hent2 : normalize table (dictGet (buildDict table names) k) = k := hent.2
      have hkn1 : k = normalize table n1 := by
        rw [hval, hent2]
      rw [hkn1, hget] at hval
      exact hne hval
  · have hkeymem : normalize table n2 ∈ (buildDict table names).map Prod.fst := hlv.2
    have hsub : containsSub (normalize table n2) (normalize table n2) = true :=
      (containsSub_iff _ _).mpr ⟨[], [], by simp⟩
    have hmem : ("• " ++ dictGet (buildDict table names) (normalize table n2)) ∈
        searchLines table n2 names :=
      (mem_searchLines_iff table n2 names _).mpr
        ⟨normalize table n2, hkeymem, Or.inl hsub, rfl⟩
    have hL : searchLines table n2 names ≠ [] := List.ne_nil_of_mem hmem
    refine ⟨searchLines table n2 names, search_command_paginated table n2 names hL, ?_⟩
    rw [← hkey, hget] at hmem
    exact hmem

set_option maxRecDepth 400000 in
/-- Witness for C9: in the response `["A", "a"]` both names normalize to
`a`; the dict keeps the later `a`, and `• A` is not among the results of the
query `a` (which does show `• a`). -/
theorem C9_witness :
    dictGet (buildDict id ["A", "a"]) (normalize id "A") = "a" ∧
    "• " ++ "A" ∉ (["• a"] : List String) := by
  have h := C9_search_shadowing id ["A", "a"] "A" "a" [] [] [] rfl (by decide)
    (by intro x hx; cases hx) (by decide)
  exact ⟨h.1, h.2.1 "a" ["• a"] (by decide)⟩
